import Mathlib

/-!
Verification development for the block-execution core and auction-info data
model of this repository.

Part 1 embeds `types/src/auction/auction_info.rs`: the `SeigniorageAllocation`
tagged union, its container `AuctionInfo`, their canonical byte encodings
(`to_bytes` / `from_bytes`) and the `select` query.  A byte stream is modelled
as a `List Nat` whose entries are intended to lie below 256.

Part 2 embeds `node/src/components/contract_runtime/operations.rs`:
`execute_finalized_block`, `commit_execution_effects`, `commit` and
`commit_step`, with the execution engine and global state store abstracted as a
record of functions (the repository consumes them as black boxes).
-/

/-- Error type of the bytesrepr module; only the variants exercised by
`auction_info.rs` are modelled. -/
inductive BytesreprError
  | EarlyEndOfStream
  | Formatting
deriving DecidableEq

/-- Little-endian bytes of a natural number at a fixed width `w`:
byte `i` is `n / 256 ^ i % 256`. -/
def leBytes : Nat → Nat → List Nat
  | 0, _ => []
  | w + 1, n => n % 256 :: leBytes w (n / 256)

/-- Value denoted by a little-endian byte list. -/
def leVal : List Nat → Nat
  | [] => 0
  | b :: bs => b + 256 * leVal bs

/-- Reads exactly `n` bytes from the stream, failing with `EarlyEndOfStream`
when the stream is too short. -/
def takeBytes : Nat → List Nat → Except BytesreprError (List Nat × List Nat)
  | 0, bs => .ok ([], bs)
  | _ + 1, [] => .error BytesreprError.EarlyEndOfStream
  | n + 1, b :: bs =>
    match takeBytes n bs with
    | .error e => .error e
    | .ok (chunk, rest) => .ok (b :: chunk, rest)

theorem leBytes_length (w n : Nat) : (leBytes w n).length = w := by
  induction w generalizing n with
  | zero => rfl
  | succ w ih => simp [leBytes, ih]

theorem leVal_leBytes (w n : Nat) (h : n < 256 ^ w) : leVal (leBytes w n) = n := by
  induction w generalizing n with
  | zero =>
    have hn : n = 0 := Nat.lt_one_iff.1 (by simpa using h)
    subst hn; rfl
  | succ w ih =>
    have hdiv : n / 256 < 256 ^ w :=
      (Nat.div_lt_iff_lt_mul (by norm_num)).2 (by rw [← pow_succ]; exact h)
    simp [leBytes, leVal, ih _ hdiv, Nat.mod_add_div]

theorem takeBytes_append (xs rest : List Nat) :
    takeBytes xs.length (xs ++ rest) = .ok (xs, rest) := by
  induction xs with
  | nil => rfl
  | cons b bs ih => simp [takeBytes, ih]

/-- Modelled from the spec: `PublicKey` (its Rust definition is not under
`src/`): "public keys ... have their own self-describing length-prefixed or
fixed-width encodings".  A key is modelled as a 256-bit quantity with a
fixed-width 32-byte little-endian canonical encoding. -/
structure PublicKey where
  key : Fin (2 ^ 256)
deriving DecidableEq

def PublicKey.to_bytes (pk : PublicKey) : List Nat := leBytes 32 pk.key.val

/-- Modelled from the spec: fixed-width decoder for `PublicKey`. -/
def PublicKey.from_bytes (bytes : List Nat) :
    Except BytesreprError (PublicKey × List Nat) :=
  match takeBytes 32 bytes with
  | .error e => .error e
  | .ok (chunk, rest) =>
    .ok (PublicKey.mk (Fin.mk (leVal chunk % 2 ^ 256) (Nat.mod_lt _ (by norm_num))), rest)

theorem publicKey_from_to (pk : PublicKey) (rest : List Nat) :
    PublicKey.from_bytes (pk.to_bytes ++ rest) = .ok (pk, rest) := by
  have hpow : (256 : Nat) ^ 32 = 2 ^ 256 := by norm_num
  have hval : leVal (leBytes 32 pk.key.val) = pk.key.val :=
    leVal_leBytes 32 _ (by rw [hpow]; exact pk.key.isLt)
  have htake := takeBytes_append (leBytes 32 pk.key.val) rest
  rw [leBytes_length] at htake
  unfold PublicKey.from_bytes PublicKey.to_bytes
  rw [htake]
  simp only [hval, Nat.mod_eq_of_lt pk.key.isLt]

/-- Modelled from the spec: `U512` (its Rust definition is not under `src/`):
"`amount` is an arbitrary-precision non-negative integer (256-bit range)" with
a self-describing canonical encoding; modelled as a 512-bit quantity with a
fixed-width 64-byte little-endian encoding. -/
structure U512 where
  val : Fin (2 ^ 512)
deriving DecidableEq

def U512.to_bytes (u : U512) : List Nat := leBytes 64 u.val.val

/-- Modelled from the spec: fixed-width decoder for `U512`. -/
def U512.from_bytes (bytes : List Nat) :
    Except BytesreprError (U512 × List Nat) :=
  match takeBytes 64 bytes with
  | .error e => .error e
  | .ok (chunk, rest) =>
    .ok (U512.mk (Fin.mk (leVal chunk % 2 ^ 512) (Nat.mod_lt _ (by norm_num))), rest)

theorem u512_from_to (u : U512) (rest : List Nat) :
    U512.from_bytes (u.to_bytes ++ rest) = .ok (u, rest) := by
  have hpow : (256 : Nat) ^ 64 = 2 ^ 512 := by norm_num
  have hval : leVal (leBytes 64 u.val.val) = u.val.val :=
    leVal_leBytes 64 _ (by rw [hpow]; exact u.val.isLt)
  have htake := takeBytes_append (leBytes 64 u.val.val) rest
  rw [leBytes_length] at htake
  unfold U512.from_bytes U512.to_bytes
  rw [htake]
  simp only [hval, Nat.mod_eq_of_lt u.val.isLt]

/-- Decoder for `u8`: one byte off the stream, `EarlyEndOfStream` on empty. -/
def u8_from_bytes : List Nat → Except BytesreprError (Nat × List Nat)
  | [] => .error BytesreprError.EarlyEndOfStream
  | b :: rest => .ok (b, rest)

def SEIGNIORAGE_ALLOCATION_VALIDATOR_TAG : Nat := 0

def SEIGNIORAGE_ALLOCATION_DELEGATOR_TAG : Nat := 1

/-- Information about a seigniorage allocation (`auction_info.rs`). -/
inductive SeigniorageAllocation
  | Validator (validator_public_key : PublicKey) (amount : U512)
  | Delegator (delegator_public_key : PublicKey) (validator_public_key : PublicKey)
      (amount : U512)
deriving DecidableEq

/-- Constructs a `SeigniorageAllocation.Validator`. -/
def SeigniorageAllocation.validator (validator_public_key : PublicKey) (amount : U512) :
    SeigniorageAllocation :=
  SeigniorageAllocation.Validator validator_public_key amount

/-- Constructs a `SeigniorageAllocation.Delegator`. -/
def SeigniorageAllocation.delegator (delegator_public_key validator_public_key : PublicKey)
    (amount : U512) : SeigniorageAllocation :=
  SeigniorageAllocation.Delegator delegator_public_key validator_public_key amount

/-- Returns the amount for a given seigniorage allocation. -/
def SeigniorageAllocation.amount : SeigniorageAllocation → U512
  | .Validator _ amount => amount
  | .Delegator _ _ amount => amount

def SeigniorageAllocation.tag : SeigniorageAllocation → Nat
  | .Validator _ _ => SEIGNIORAGE_ALLOCATION_VALIDATOR_TAG
  | .Delegator _ _ _ => SEIGNIORAGE_ALLOCATION_DELEGATOR_TAG

/-- The `ToBytes` impl: tag byte, then the variant's fields in declaration
order. -/
def SeigniorageAllocation.to_bytes (sa : SeigniorageAllocation) : List Nat :=
  sa.tag ::
    match sa with
    | .Validator validator_public_key amount =>
        validator_public_key.to_bytes ++ amount.to_bytes
    | .Delegator delegator_public_key validator_public_key amount =>
        delegator_public_key.to_bytes ++ validator_public_key.to_bytes ++ amount.to_bytes

/-- The `FromBytes` impl: read the tag byte, dispatch on it, reject anything
other than the validator/delegator tags with `Formatting`. -/
def SeigniorageAllocation.from_bytes (bytes : List Nat) :
    Except BytesreprError (SeigniorageAllocation × List Nat) :=
  match u8_from_bytes bytes with
  | .error e => .error e
  | .ok (tag, rem) =>
    if tag = SEIGNIORAGE_ALLOCATION_VALIDATOR_TAG then
      match PublicKey.from_bytes rem with
      | .error e => .error e
      | .ok (validator_public_key, rem) =>
        match U512.from_bytes rem with
        | .error e => .error e
        | .ok (amount, rem) =>
          .ok (SeigniorageAllocation.validator validator_public_key amount, rem)
    else if tag = SEIGNIORAGE_ALLOCATION_DELEGATOR_TAG then
      match PublicKey.from_bytes rem with
      | .error e => .error e
      | .ok (delegator_public_key, rem) =>
        match PublicKey.from_bytes rem with
        | .error e => .error e
        | .ok (validator_public_key, rem) =>
          match U512.from_bytes rem with
          | .error e => .error e
          | .ok (amount, rem) =>
            .ok (SeigniorageAllocation.delegator delegator_public_key validator_public_key
              amount, rem)
    else .error BytesreprError.Formatting

theorem seigniorage_from_to (sa : SeigniorageAllocation) (rest : List Nat) :
    SeigniorageAllocation.from_bytes (sa.to_bytes ++ rest) = .ok (sa, rest) := by
  cases sa with
  | Validator v a =>
    simp [SeigniorageAllocation.to_bytes, SeigniorageAllocation.from_bytes,
      SeigniorageAllocation.tag, u8_from_bytes, SEIGNIORAGE_ALLOCATION_VALIDATOR_TAG,
      SEIGNIORAGE_ALLOCATION_DELEGATOR_TAG, List.append_assoc, publicKey_from_to,
      u512_from_to, SeigniorageAllocation.validator]
  | Delegator d v a =>
    simp [SeigniorageAllocation.to_bytes, SeigniorageAllocation.from_bytes,
      SeigniorageAllocation.tag, u8_from_bytes, SEIGNIORAGE_ALLOCATION_VALIDATOR_TAG,
      SEIGNIORAGE_ALLOCATION_DELEGATOR_TAG, List.append_assoc, publicKey_from_to,
      u512_from_to, SeigniorageAllocation.delegator]

/-- Modelled from the spec: the `Vec<T>` encoding used by `AuctionInfo`
("a length-prefixed sequence of allocation encodings"): a 4-byte (`u32`)
little-endian length prefix followed by the element encodings back to back. -/
def vecToBytes (enc : α → List Nat) (xs : List α) : List Nat :=
  leBytes 4 xs.length ++ (xs.map enc).flatten

/-- Decodes exactly `n` consecutive elements, threading the unconsumed tail. -/
def vecFromBytesLoop (dec : List Nat → Except BytesreprError (α × List Nat)) :
    Nat → List Nat → Except BytesreprError (List α × List Nat)
  | 0, bs => .ok ([], bs)
  | n + 1, bs =>
    match dec bs with
    | .error e => .error e
    | .ok (x, bs1) =>
      match vecFromBytesLoop dec n bs1 with
      | .error e => .error e
      | .ok (xs, bs2) => .ok (x :: xs, bs2)

/-- Modelled from the spec: `Vec<T>` decoder — read the `u32` count, then that
many elements. -/
def vecFromBytes (dec : List Nat → Except BytesreprError (α × List Nat))
    (bytes : List Nat) : Except BytesreprError (List α × List Nat) :=
  match takeBytes 4 bytes with
  | .error e => .error e
  | .ok (chunk, rest) => vecFromBytesLoop dec (leVal chunk) rest

theorem vecFromBytesLoop_append (dec : List Nat → Except BytesreprError (α × List Nat))
    (enc : α → List Nat) (xs : List α) (rest : List Nat)
    (helem : ∀ x ∈ xs, ∀ r, dec (enc x ++ r) = .ok (x, r)) :
    vecFromBytesLoop dec xs.length ((xs.map enc).flatten ++ rest) = .ok (xs, rest) := by
  induction xs with
  | nil => simp [vecFromBytesLoop]
  | cons x xs ih =>
    simp [vecFromBytesLoop, List.append_assoc, helem x (by simp),
      ih (fun y hy r => helem y (by simp [hy]) r)]

theorem vecFromBytes_roundtrip (dec : List Nat → Except BytesreprError (α × List Nat))
    (enc : α → List Nat) (xs : List α) (rest : List Nat) (hlen : xs.length < 2 ^ 32)
    (helem : ∀ x ∈ xs, ∀ r, dec (enc x ++ r) = .ok (x, r)) :
    vecFromBytes dec (vecToBytes enc xs ++ rest) = .ok (xs, rest) := by
  have hpow : (256 : Nat) ^ 4 = 2 ^ 32 := by norm_num
  have hval : leVal (leBytes 4 xs.length) = xs.length :=
    leVal_leBytes 4 _ (by rw [hpow]; exact hlen)
  have htake := takeBytes_append (leBytes 4 xs.length) ((xs.map enc).flatten ++ rest)
  rw [leBytes_length] at htake
  unfold vecFromBytes vecToBytes
  rw [List.append_assoc, htake]
  show vecFromBytesLoop dec (leVal (leBytes 4 xs.length)) ((xs.map enc).flatten ++ rest)
    = .ok (xs, rest)
  rw [hval]
  exact vecFromBytesLoop_append dec enc xs rest helem

/-- Auction metadata, recorded at each era (`auction_info.rs`). -/
structure AuctionInfo where
  seigniorage_allocations : List SeigniorageAllocation
deriving DecidableEq

/-- Constructs an `AuctionInfo` (empty allocation list). -/
def AuctionInfo.new : AuctionInfo := AuctionInfo.mk []

/-- The `ToBytes` impl for `AuctionInfo`: delegate to the `Vec` encoding of the
allocations. -/
def AuctionInfo.to_bytes (info : AuctionInfo) : List Nat :=
  vecToBytes SeigniorageAllocation.to_bytes info.seigniorage_allocations

/-- The `FromBytes` impl for `AuctionInfo`. -/
def AuctionInfo.from_bytes (bytes : List Nat) :
    Except BytesreprError (AuctionInfo × List Nat) :=
  match vecFromBytes SeigniorageAllocation.from_bytes bytes with
  | .error e => .error e
  | .ok (seigniorage_allocations, rem) => .ok (AuctionInfo.mk seigniorage_allocations, rem)

/-- The filter body of `AuctionInfo::select`: the provided public key is
matched against the validator key of a `Validator` allocation and the
delegator key of a `Delegator` allocation. -/
def selectPred (public_key : PublicKey) : SeigniorageAllocation → Bool
  | SeigniorageAllocation.Validator validator_public_key _ =>
      decide (public_key = validator_public_key)
  | SeigniorageAllocation.Delegator delegator_public_key _ _ =>
      decide (public_key = delegator_public_key)

/-- `AuctionInfo::select`: all seigniorage allocations matching the provided
public key, as a filter over the allocation list. -/
def AuctionInfo.select (info : AuctionInfo) (public_key : PublicKey) :
    List SeigniorageAllocation :=
  info.seigniorage_allocations.filter (selectPred public_key)

/-- Spec-side matching criterion, written from the spec's words: an allocation
matches when the key equals the validator-key field (Validator variant) or the
delegator-key field (Delegator variant). -/
def allocationMatches (public_key : PublicKey) (a : SeigniorageAllocation) : Bool :=
  match a with
  | SeigniorageAllocation.Validator validator_public_key _ =>
      decide (public_key = validator_public_key)
  | SeigniorageAllocation.Delegator delegator_public_key _ _ =>
      decide (public_key = delegator_public_key)

def pkA : PublicKey := PublicKey.mk (Fin.mk 1 (by norm_num))

def pkB : PublicKey := PublicKey.mk (Fin.mk 2 (by norm_num))

def u512One : U512 := U512.mk (Fin.mk 1 (by norm_num))

def sampleAllocation : SeigniorageAllocation := SeigniorageAllocation.validator pkA u512One

def sampleInfo : AuctionInfo :=
  AuctionInfo.mk [SeigniorageAllocation.validator pkA u512One,
    SeigniorageAllocation.delegator pkB pkA u512One]

/-- C3: for every constructible `SeigniorageAllocation` and every constructible
`AuctionInfo` (its allocation count addressable by the `u32` length prefix),
`from_bytes` applied to `to_bytes`' output succeeds, yields a value equal to
the original, and leaves an empty remainder. -/
theorem encoding_roundtrip :
    (∀ sa : SeigniorageAllocation,
        SeigniorageAllocation.from_bytes sa.to_bytes = .ok (sa, [])) ∧
    (∀ info : AuctionInfo, info.seigniorage_allocations.length < 2 ^ 32 →
        AuctionInfo.from_bytes info.to_bytes = .ok (info, [])) := by
  constructor
  · intro sa
    simpa using seigniorage_from_to sa []
  · intro info hlen
    have h := vecFromBytes_roundtrip SeigniorageAllocation.from_bytes
      SeigniorageAllocation.to_bytes info.seigniorage_allocations [] hlen
      (fun x _ r => seigniorage_from_to x r)
    rw [List.append_nil] at h
    unfold AuctionInfo.from_bytes AuctionInfo.to_bytes
    rw [h]

/-- Witness for C3 at a concrete allocation and a concrete two-element
`AuctionInfo`. -/
theorem encoding_roundtrip_witness :
    SeigniorageAllocation.from_bytes (SeigniorageAllocation.to_bytes sampleAllocation)
        = .ok (sampleAllocation, []) ∧
    AuctionInfo.from_bytes (AuctionInfo.to_bytes sampleInfo) = .ok (sampleInfo, []) :=
  ⟨encoding_roundtrip.1 sampleAllocation,
   encoding_roundtrip.2 sampleInfo (by norm_num [sampleInfo])⟩

/-- C4: for every byte buffer whose leading tag byte is neither 0 (Validator)
nor 1 (Delegator), `SeigniorageAllocation::from_bytes` fails with a formatting
error; no unknown tag is coerced to a value. -/
theorem tag_rejection (t : Nat) (rest : List Nat) (h0 : t ≠ 0) (h1 : t ≠ 1) :
    SeigniorageAllocation.from_bytes (t :: rest) = .error BytesreprError.Formatting := by
  unfold SeigniorageAllocation.from_bytes
  simp [u8_from_bytes, SEIGNIORAGE_ALLOCATION_VALIDATOR_TAG,
    SEIGNIORAGE_ALLOCATION_DELEGATOR_TAG, h0, h1]

/-- Witness for C4: tag byte 2 is rejected with `Formatting`. -/
theorem tag_rejection_witness :
    SeigniorageAllocation.from_bytes (2 :: []) = .error BytesreprError.Formatting :=
  tag_rejection 2 [] (by decide) (by decide)

/-- C7: `select pk` returns exactly those allocations whose validator key
(Validator variant) or delegator key (Delegator variant) equals `pk`, in the
original insertion order of the allocations vector: it is the order-preserving
filter of the allocation list by the spec's matching criterion. -/
theorem select_correct (info : AuctionInfo) (pk : PublicKey) :
    info.select pk = info.seigniorage_allocations.filter (allocationMatches pk) ∧
    List.Sublist (info.select pk) info.seigniorage_allocations ∧
    (∀ a : SeigniorageAllocation,
        a ∈ info.select pk ↔
          a ∈ info.seigniorage_allocations ∧ allocationMatches pk a = true) := by
  have hpred : ∀ a, selectPred pk a = allocationMatches pk a := by
    intro a
    cases a <;> rfl
  refine ⟨?_, ?_, ?_⟩
  · unfold AuctionInfo.select
    exact List.filter_congr (fun a _ => hpred a)
  · unfold AuctionInfo.select
    exact List.filter_sublist _
  · intro a
    unfold AuctionInfo.select
    rw [List.mem_filter, hpred a]

/-- Witness for C7 on a concrete two-element `AuctionInfo`. -/
theorem select_correct_witness :
    sampleInfo.select pkA
      = sampleInfo.seigniorage_allocations.filter (allocationMatches pkA) :=
  (select_correct sampleInfo pkA).1

/-!
Part 2: `operations.rs`.  `Digest`, deploy hashes, deploy headers, engine
errors, step errors, keys and transforms are opaque to this module and are
modelled as naturals; the execution engine together with the global state
store is modelled as a record of the three functions the module calls on it.
-/

abbrev Digest := Nat

abbrev EngineError := Nat

abbrev StepError := Nat

/-- Effect set: an additive map from state keys to transforms. -/
abbrev Effects := List (Nat × Nat)

/-- Execution effect of one transaction: journal of operations plus the
transform map that `commit` applies. -/
structure ExecutionEffect where
  operations : List (Nat × Nat)
  transforms : Effects
deriving DecidableEq

/-- Raw engine-level execution result (`engine_state::ExecutionResult`); both
branches carry an effect set and a cost. -/
inductive EngineExecutionResult
  | Success (effect : ExecutionEffect) (cost : Nat)
  | Failure (error : EngineError) (effect : ExecutionEffect) (cost : Nat)
deriving DecidableEq

/-- Modelled from the spec: the normalized externally-visible per-transaction
outcome (`casper_types::ExecutionResult`, not under `src/`): tagged outcome
`Success{effect, cost}` / `Failure{error, effect, cost}`, obtained from the
engine result by `ExecutionResult::from`. -/
inductive ExecutionResult
  | Success (effect : ExecutionEffect) (cost : Nat)
  | Failure (error : EngineError) (effect : ExecutionEffect) (cost : Nat)
deriving DecidableEq

/-- Modelled from the spec: `ExecutionResult::from(&engine_result)`. -/
def ExecutionResult.ofEngineResult : EngineExecutionResult → ExecutionResult
  | .Success effect cost => .Success effect cost
  | .Failure error effect cost => .Failure error effect cost

/-- A deploy, reduced to the two projections `operations.rs` reads from it:
its identifying hash (`deploy.id()`) and its header (`deploy.header()`). -/
structure Deploy where
  hash : Nat
  header : Nat
deriving DecidableEq

/-- An execution request submitted to the engine (`ExecuteRequest::new`). -/
structure ExecuteRequest where
  parent_state_hash : Digest
  block_time : Nat
  deploys : List Deploy
  protocol_version : Nat
  proposer : PublicKey
deriving DecidableEq

structure RewardItem where
  validator_id : PublicKey
  value : Nat
deriving DecidableEq

structure EvictItem where
  validator_id : PublicKey
deriving DecidableEq

structure SlashItem where
  validator_id : PublicKey
deriving DecidableEq

/-- End-of-era step request submitted to the engine. -/
structure StepRequest where
  pre_state_hash : Digest
  protocol_version : Nat
  reward_items : List RewardItem
  slash_items : List SlashItem
  evict_items : List EvictItem
  run_auction : Bool
  next_era_id : Nat
  era_end_timestamp_millis : Nat
deriving DecidableEq

/-- Successful step outcome: new root, next-era validator weights, step
effect. -/
structure StepSuccess where
  post_state_hash : Digest
  next_era_validators : List (PublicKey × Nat)
  execution_effect : ExecutionEffect
deriving DecidableEq

/-- Era-end report produced by consensus: equivocators (unused here), reward
weights and inactive validators. -/
structure EraReport where
  equivocators : List PublicKey
  rewards : List (PublicKey × Nat)
  inactive_validators : List PublicKey
deriving DecidableEq

/-- A finalized block, reduced to the projections `operations.rs` reads:
timestamp (millis), proposer, era id, height and the optional era report. -/
structure FinalizedBlock where
  timestamp : Nat
  proposer : PublicKey
  era_id : Nat
  height : Nat
  era_report : Option EraReport
deriving DecidableEq

/-- Caller-supplied pre-execution state for one block. -/
structure ExecutionPreState where
  next_block_height : Nat
  pre_state_root_hash : Digest
  parent_hash : Nat
  parent_seed : Nat
deriving DecidableEq

/-- Fatal block-execution error (`contract_runtime::error::BlockExecutionError`;
its definition is not under `src/`, variants modelled from the conversions
`operations.rs` performs with `?`). -/
inductive BlockExecutionError
  | MoreThanOneExecutionResult
  | EngineErr (e : EngineError)
  | StepErr (e : StepError)
deriving DecidableEq

/-- The execution engine plus global state store, abstracted as the three
operations `operations.rs` invokes on it. -/
structure Engine where
  run_execute : ExecuteRequest → Except EngineError (List EngineExecutionResult)
  apply_effect : Digest → Effects → Except EngineError Digest
  commit_step : StepRequest → Except StepError StepSuccess

/-- `itertools::exactly_one`: the sole element of a singleton collection,
failure on any other cardinality. -/
def exactlyOne : List α → Option α
  | [x] => some x
  | _ => none

/-- `commit`: applies an effect set to a state root, returning the new root
(metrics and tracing omitted). -/
def commit (eng : Engine) (state_root_hash : Digest) (effects : Effects) :
    Except EngineError Digest :=
  eng.apply_effect state_root_hash effects

/-- `execute`: submits an execution request to the engine (metrics and tracing
omitted). -/
def execute (eng : Engine) (execute_request : ExecuteRequest) :
    Except EngineError (List EngineExecutionResult) :=
  eng.run_execute execute_request

/-- `commit_execution_effects`: demands exactly one raw result, extracts its
effect set from either branch, commits it and pairs the new root with the
normalized result. -/
def commit_execution_effects (eng : Engine) (state_root_hash : Digest)
    (deploy_hash : Nat) (execution_results : List EngineExecutionResult) :
    Except BlockExecutionError (Digest × ExecutionResult) :=
  match exactlyOne execution_results with
  | none => .error BlockExecutionError.MoreThanOneExecutionResult
  | some ee_execution_result =>
    let execution_result := ExecutionResult.ofEngineResult ee_execution_result
    let execution_effect :=
      match ee_execution_result with
      | .Success effect _ => effect
      | .Failure _ effect _ => effect
    match commit eng state_root_hash execution_effect.transforms with
    | .error e => .error (BlockExecutionError.EngineErr e)
    | .ok new_state_root => .ok (new_state_root, execution_result)

/-- `commit_step`: builds the step request from the era report — rewards 1:1
to reward items, inactive validators 1:1 to evict items, no slash items
(Highway does not slash), `run_auction = true` — and submits it. -/
def commit_step (eng : Engine) (protocol_version : Nat) (pre_state_root_hash : Digest)
    (era_report : EraReport) (era_end_timestamp_millis : Nat) (next_era_id : Nat) :
    Except StepError StepSuccess :=
  let reward_items := era_report.rewards.map (fun rv => RewardItem.mk rv.1 rv.2)
  let evict_items := era_report.inactive_validators.map EvictItem.mk
  eng.commit_step (StepRequest.mk pre_state_root_hash protocol_version reward_items
    [] evict_items true next_era_id era_end_timestamp_millis)

/-- The per-transaction outcome map `HashMap<DeployHash, (DeployHeader,
ExecutionResult)>`, modelled as a key-unique association list; `mapInsert`
has the map's overwrite-on-duplicate-key semantics. -/
abbrev ResMap := List (Nat × (Nat × ExecutionResult))

def mapInsert (m : ResMap) (k : Nat) (v : Nat × ExecutionResult) : ResMap :=
  m.filter (fun p => p.1 != k) ++ [(k, v)]

/-- Number of entries of the map carrying key `k`. -/
def countKey (m : ResMap) (k : Nat) : Nat :=
  (m.filter (fun p => p.1 == k)).length

/-- Lookup of key `k` in the map. -/
def lookupKey (m : ResMap) (k : Nat) : Option (Nat × ExecutionResult) :=
  (m.find? (fun p => p.1 == k)).map (fun p => p.2)

/-- One iteration of the deploy loop of `execute_finalized_block`: build the
execution request against the current root, run it, commit its effects, and
return the new root together with the `(header, result)` record. -/
def stepDeploy (eng : Engine) (protocol_version : Nat) (proposer : PublicKey)
    (block_time : Nat) (state_root_hash : Digest) (deploy : Deploy) :
    Except BlockExecutionError (Digest × (Nat × ExecutionResult)) :=
  match execute eng (ExecuteRequest.mk state_root_hash block_time [deploy]
      protocol_version proposer) with
  | .error e => .error (BlockExecutionError.EngineErr e)
  | .ok result =>
    match commit_execution_effects eng state_root_hash deploy.hash result with
    | .error e => .error e
    | .ok (state_hash, execution_result) =>
      .ok (state_hash, (deploy.header, execution_result))

/-- The deploy loop of `execute_finalized_block`: thread the state root
through the deploys in block order, accumulating the outcome map. -/
def execDeploys (eng : Engine) (protocol_version : Nat) (proposer : PublicKey)
    (block_time : Nat) :
    Digest → ResMap → List Deploy → Except BlockExecutionError (Digest × ResMap)
  | state_root_hash, m, [] => .ok (state_root_hash, m)
  | state_root_hash, m, deploy :: rest =>
    match stepDeploy eng protocol_version proposer block_time state_root_hash deploy with
    | .error e => .error e
    | .ok (state_hash, hr) =>
      execDeploys eng protocol_version proposer block_time state_hash
        (mapInsert m deploy.hash hr) rest

/-- A block, reduced to the fields `Block::new` receives in
`execute_finalized_block`. -/
structure Block where
  parent_hash : Nat
  parent_seed : Nat
  state_root_hash : Digest
  finalized_block : FinalizedBlock
  next_era_validator_weights : Option (List (PublicKey × Nat))
  protocol_version : Nat
deriving DecidableEq

/-- `Block::new` (block construction; hashing internals are outside this
module and its failure modes are not modelled). -/
def Block.new (parent_hash parent_seed : Nat) (state_root_hash : Digest)
    (finalized_block : FinalizedBlock)
    (next_era_validator_weights : Option (List (PublicKey × Nat)))
    (protocol_version : Nat) : Block :=
  Block.mk parent_hash parent_seed state_root_hash finalized_block
    next_era_validator_weights protocol_version

/-- Output aggregate of `execute_finalized_block`. -/
structure BlockAndExecutionEffects where
  block : Block
  execution_results : ResMap
  maybe_step_execution_effect : Option ExecutionEffect
deriving DecidableEq

/-- `execute_finalized_block`: run every deploy in order against the evolving
root, then — iff the finalized block carries an era report — run the step with
the resulting root, the report, the block timestamp and the successor era id,
and assemble the block (the `debug_assert_eq!` on the pre-state height is a
debug-build check and has no runtime effect). -/
def execute_finalized_block (eng : Engine) (protocol_version : Nat)
    (execution_pre_state : ExecutionPreState) (finalized_block : FinalizedBlock)
    (deploys : List Deploy) : Except BlockExecutionError BlockAndExecutionEffects :=
  match execDeploys eng protocol_version finalized_block.proposer
      finalized_block.timestamp execution_pre_state.pre_state_root_hash [] deploys with
  | .error e => .error e
  | .ok (state_root_hash, execution_results) =>
    match finalized_block.era_report with
    | none =>
      .ok (BlockAndExecutionEffects.mk
        (Block.new execution_pre_state.parent_hash execution_pre_state.parent_seed
          state_root_hash finalized_block none protocol_version)
        execution_results none)
    | some era_report =>
      match commit_step eng protocol_version state_root_hash era_report
          finalized_block.timestamp (finalized_block.era_id + 1) with
      | .error e => .error (BlockExecutionError.StepErr e)
      | .ok s =>
        .ok (BlockAndExecutionEffects.mk
          (Block.new execution_pre_state.parent_hash execution_pre_state.parent_seed
            s.post_state_hash finalized_block (some s.next_era_validators)
            protocol_version)
          execution_results (some s.execution_effect))

/-- Sequential root threading of the deploy loop, stated structurally: the
first deploy runs against the head root, and every further deploy runs
against the root produced by committing its predecessor's effects. -/
inductive Threaded (eng : Engine) (pv : Nat) (proposer : PublicKey) (block_time : Nat) :
    Digest → List Deploy → Digest → Prop
  | nil (root : Digest) : Threaded eng pv proposer block_time root [] root
  | cons {root mid final : Digest} {d : Deploy} {ds : List Deploy}
      {hr : Nat × ExecutionResult}
      (hstep : stepDeploy eng pv proposer block_time root d = .ok (mid, hr))
      (htail : Threaded eng pv proposer block_time mid ds final) :
      Threaded eng pv proposer block_time root (d :: ds) final

theorem execDeploys_threaded (eng : Engine) (pv : Nat) (proposer : PublicKey) (t : Nat)
    (deploys : List Deploy) :
    ∀ root m final m', execDeploys eng pv proposer t root m deploys = .ok (final, m') →
      Threaded eng pv proposer t root deploys final := by
  induction deploys with
  | nil =>
    intro root m final m' h
    simp only [execDeploys, Except.ok.injEq, Prod.mk.injEq] at h
    rw [h.1]
    exact Threaded.nil final
  | cons d ds ih =>
    intro root m final m' h
    rw [execDeploys] at h
    cases hs : stepDeploy eng pv proposer t root d with
    | error e =>
      rw [hs] at h
      simp at h
    | ok pr =>
      obtain ⟨mid, hr⟩ := pr
      rw [hs] at h
      exact Threaded.cons hs (ih mid (mapInsert m d.hash hr) final m' h)

theorem countKey_mapInsert (m : ResMap) (k : Nat) (v : Nat × ExecutionResult) (h : Nat) :
    countKey (mapInsert m k v) h = if h = k then 1 else countKey m h := by
  unfold countKey mapInsert
  rw [List.filter_append]
  by_cases hk : h = k
  · subst hk
    have h0 : (m.filter (fun p => p.1 != h)).filter (fun p => p.1 == h) = [] := by
      apply List.filter_eq_nil_iff.2
      intro p hp
      have hmem := (List.mem_filter.1 hp).2
      simp only [bne_iff_ne, ne_eq] at hmem
      simp only [beq_iff_eq]
      exact hmem
    rw [h0]
    simp
  · have h1 : (m.filter (fun p => p.1 != k)).filter (fun p => p.1 == h)
        = m.filter (fun p => p.1 == h) := by
      rw [List.filter_comm]
      apply List.filter_eq_self.2
      intro p hp
      have hmem := (List.mem_filter.1 hp).2
      simp only [beq_iff_eq] at hmem
      simp only [bne_iff_ne, ne_eq]
      rw [hmem]
      exact hk
    have h2 : List.filter (fun p => p.1 == h) [(k, v)] = [] := by
      simp [Ne.symm hk]
    rw [h1, h2]
    simp [hk]

theorem execDeploys_countKey (eng : Engine) (pv : Nat) (proposer : PublicKey) (t : Nat)
    (deploys : List Deploy) :
    ∀ root m final m', execDeploys eng pv proposer t root m deploys = .ok (final, m') →
      ∀ h, countKey m' h = if h ∈ deploys.map Deploy.hash then 1 else countKey m h := by
  induction deploys with
  | nil =>
    intro root m final m' hok h
    simp only [execDeploys, Except.ok.injEq, Prod.mk.injEq] at hok
    simp [hok.2.symm]
  | cons d ds ih =>
    intro root m final m' hok h
    rw [execDeploys] at hok
    cases hs : stepDeploy eng pv proposer t root d with
    | error e =>
      rw [hs] at hok
      simp at hok
    | ok pr =>
      obtain ⟨mid, hr⟩ := pr
      rw [hs] at hok
      rw [ih mid (mapInsert m d.hash hr) final m' hok h, countKey_mapInsert]
      by_cases h1 : h ∈ ds.map Deploy.hash
      · simp [h1]
      · by_cases h2 : h = d.hash
        · simp [h1, h2]
        · simp [h1, h2]

theorem execDeploys_engine_agnostic (eng eng' : Engine)
    (hrun : eng'.run_execute = eng.run_execute)
    (happ : eng'.apply_effect = eng.apply_effect)
    (pv : Nat) (proposer : PublicKey) (t : Nat) (deploys : List Deploy) :
    ∀ root m, execDeploys eng' pv proposer t root m deploys
      = execDeploys eng pv proposer t root m deploys := by
  induction deploys with
  | nil =>
    intro root m
    rfl
  | cons d ds ih =>
    intro root m
    have hstep : stepDeploy eng' pv proposer t root d
        = stepDeploy eng pv proposer t root d := by
      unfold stepDeploy execute commit_execution_effects commit
      rw [hrun, happ]
    simp only [execDeploys, hstep]
    cases stepDeploy eng pv proposer t root d with
    | error e => rfl
    | ok pr =>
      obtain ⟨mid, hr⟩ := pr
      exact ih mid (mapInsert m d.hash hr)

theorem execute_finalized_block_inv (eng : Engine) (pv : Nat) (pre : ExecutionPreState)
    (fb : FinalizedBlock) (deploys : List Deploy) (bee : BlockAndExecutionEffects)
    (hok : execute_finalized_block eng pv pre fb deploys = .ok bee) :
    ∃ final m,
      execDeploys eng pv fb.proposer fb.timestamp pre.pre_state_root_hash [] deploys
        = .ok (final, m) ∧
      ((fb.era_report = none ∧
          bee = BlockAndExecutionEffects.mk
            (Block.new pre.parent_hash pre.parent_seed final fb none pv) m none) ∨
       (∃ rep s, fb.era_report = some rep ∧
          commit_step eng pv final rep fb.timestamp (fb.era_id + 1) = .ok s ∧
          bee = BlockAndExecutionEffects.mk
            (Block.new pre.parent_hash pre.parent_seed s.post_state_hash fb
              (some s.next_era_validators) pv) m (some s.execution_effect))) := by
  unfold execute_finalized_block at hok
  split at hok
  next e heq => exact Except.noConfusion hok
  next state_root_hash execution_results heq =>
    split at hok
    next hrep =>
      have h := Except.ok.inj hok
      exact ⟨state_root_hash, execution_results, heq, Or.inl ⟨hrep, h.symm⟩⟩
    next rep hrep =>
      split at hok
      next e hstep => exact Except.noConfusion hok
      next s hstep =>
        have h := Except.ok.inj hok
        exact ⟨state_root_hash, execution_results, heq,
          Or.inr ⟨rep, s, hrep, hstep, h.symm⟩⟩

def effEmpty : ExecutionEffect := ExecutionEffect.mk [] []

def samplePre : ExecutionPreState := ExecutionPreState.mk 3 0 11 13

def sampleDeploy : Deploy := Deploy.mk 7 5

def sampleFbNoReport : FinalizedBlock := FinalizedBlock.mk 1000 pkA 2 3 none

def sampleReport : EraReport := EraReport.mk [] [(pkA, 10)] [pkB]

def sampleFbReport : FinalizedBlock := FinalizedBlock.mk 1000 pkA 2 3 (some sampleReport)

/-- A concrete engine for witnesses: every execution succeeds with cost equal
to the request's root, committing bumps the root by one, the step bumps the
root by one hundred. -/
def engW : Engine := Engine.mk
  (fun req => .ok [EngineExecutionResult.Success effEmpty req.parent_state_hash])
  (fun root _ => .ok (root + 1))
  (fun req => .ok (StepSuccess.mk (req.pre_state_hash + 100) [] effEmpty))

def beeNoReport : BlockAndExecutionEffects :=
  BlockAndExecutionEffects.mk (Block.new 11 13 1 sampleFbNoReport none 1)
    [(7, (5, ExecutionResult.Success effEmpty 0))] none

def beeReport : BlockAndExecutionEffects :=
  BlockAndExecutionEffects.mk (Block.new 11 13 101 sampleFbReport (some []) 1)
    [(7, (5, ExecutionResult.Success effEmpty 0))] (some effEmpty)

/-- C1: in `execute_finalized_block`, the state root used to execute each
transaction equals the root returned by committing its predecessor's effects
(the pre-state root for the first), and the root fed to the step (if any) is
the output root of the last transaction, or the pre-state root if there were
none; absent a step, that root becomes the block's state root. -/
theorem sequential_root_threading (eng : Engine) (pv : Nat) (pre : ExecutionPreState)
    (fb : FinalizedBlock) (deploys : List Deploy) (bee : BlockAndExecutionEffects)
    (hok : execute_finalized_block eng pv pre fb deploys = .ok bee) :
    ∃ final : Digest,
      Threaded eng pv fb.proposer fb.timestamp pre.pre_state_root_hash deploys final ∧
      ((fb.era_report = none ∧ bee.block.state_root_hash = final) ∨
       (∃ rep s, fb.era_report = some rep ∧
          commit_step eng pv final rep fb.timestamp (fb.era_id + 1) = .ok s ∧
          bee.block.state_root_hash = s.post_state_hash)) := by
  obtain ⟨final, m, hd, hcases⟩ := execute_finalized_block_inv eng pv pre fb deploys bee hok
  refine ⟨final, execDeploys_threaded eng pv fb.proposer fb.timestamp deploys
    pre.pre_state_root_hash [] final m hd, ?_⟩
  rcases hcases with ⟨hrep, hbee⟩ | ⟨rep, s, hrep, hstep, hbee⟩
  · exact Or.inl ⟨hrep, by rw [hbee]; rfl⟩
  · exact Or.inr ⟨rep, s, hrep, hstep, by rw [hbee]; rfl⟩

/-- Witness for C1 on a concrete one-deploy block without an era report. -/
theorem sequential_root_threading_witness :
    ∃ final : Digest,
      Threaded engW 1 sampleFbNoReport.proposer sampleFbNoReport.timestamp
        samplePre.pre_state_root_hash [sampleDeploy] final ∧
      ((sampleFbNoReport.era_report = none ∧
          beeNoReport.block.state_root_hash = final) ∨
       (∃ rep s, sampleFbNoReport.era_report = some rep ∧
          commit_step engW 1 final rep sampleFbNoReport.timestamp
            (sampleFbNoReport.era_id + 1) = .ok s ∧
          beeNoReport.block.state_root_hash = s.post_state_hash)) :=
  sequential_root_threading engW 1 samplePre sampleFbNoReport [sampleDeploy]
    beeNoReport rfl

/-- C2: whenever the raw execution-result collection contains zero entries or
two or more entries, `commit_execution_effects` fails with
`MoreThanOneExecutionResult`; since the outcome is this constant for every
engine, no commit is invoked and no effect is applied. -/
theorem single_result_invariant (eng : Engine) (root : Digest) (deploy_hash : Nat)
    (results : List EngineExecutionResult) (hlen : results.length ≠ 1) :
    commit_execution_effects eng root deploy_hash results
      = .error BlockExecutionError.MoreThanOneExecutionResult := by
  unfold commit_execution_effects
  match results with
  | [] => rfl
  | [x] => simp at hlen
  | a :: b :: t => rfl

/-- Witness for C2 on the empty result collection. -/
theorem single_result_invariant_witness :
    commit_execution_effects engW 0 7 []
      = .error BlockExecutionError.MoreThanOneExecutionResult :=
  single_result_invariant engW 0 7 [] (by decide)

/-- C5: the step is invoked iff the finalized block carries an era report.
Without a report the produced block carries no next-era validator set, its
state root is the deploy loop's final root (the pre-state root if there were
no deploys), the step-effect output is `None`, and the outcome is unchanged
under any replacement of the engine's step operation; with a report the
block's root, validator set and step effect all come from the step run at the
loop's final root with the successor era id and the block timestamp. -/
theorem step_gating (eng eng' : Engine) (pv : Nat) (pre : ExecutionPreState)
    (fb : FinalizedBlock) (deploys : List Deploy) (bee : BlockAndExecutionEffects)
    (hok : execute_finalized_block eng pv pre fb deploys = .ok bee) :
    (fb.era_report = none →
      bee.maybe_step_execution_effect = none ∧
      bee.block.next_era_validator_weights = none ∧
      (∃ m, execDeploys eng pv fb.proposer fb.timestamp pre.pre_state_root_hash [] deploys
          = .ok (bee.block.state_root_hash, m)) ∧
      (eng'.run_execute = eng.run_execute → eng'.apply_effect = eng.apply_effect →
        execute_finalized_block eng' pv pre fb deploys = .ok bee)) ∧
    (∀ rep, fb.era_report = some rep →
      ∃ final m s,
        execDeploys eng pv fb.proposer fb.timestamp pre.pre_state_root_hash [] deploys
          = .ok (final, m) ∧
        commit_step eng pv final rep fb.timestamp (fb.era_id + 1) = .ok s ∧
        bee.maybe_step_execution_effect = some s.execution_effect ∧
        bee.block.next_era_validator_weights = some s.next_era_validators ∧
        bee.block.state_root_hash = s.post_state_hash) := by
  obtain ⟨final, m, hd, hcases⟩ := execute_finalized_block_inv eng pv pre fb deploys bee hok
  constructor
  · intro hnone
    rcases hcases with ⟨_, hbee⟩ | ⟨rep, s, hrep, _, _⟩
    · subst hbee
      refine ⟨rfl, rfl, ⟨m, hd⟩, ?_⟩
      intro hrun happ
      unfold execute_finalized_block
      rw [execDeploys_engine_agnostic eng eng' hrun happ pv fb.proposer fb.timestamp
        deploys pre.pre_state_root_hash [], hd, hnone]
    · rw [hnone] at hrep
      exact absurd hrep (by simp)
  · intro rep hrep
    rcases hcases with ⟨hnone, _⟩ | ⟨rep', s, hrep', hstep, hbee⟩
    · rw [hrep] at hnone
      exact absurd hnone (by simp)
    · have hre : rep' = rep := by
        have := hrep'.symm.trans hrep
        injection this
      subst hre
      subst hbee
      exact ⟨final, m, s, hd, hstep, rfl, rfl, rfl⟩

/-- Witness for C5 on a concrete one-deploy block carrying an era report. -/
theorem step_gating_witness :
    ∃ final m s,
      execDeploys engW 1 sampleFbReport.proposer sampleFbReport.timestamp
        samplePre.pre_state_root_hash [] [sampleDeploy] = .ok (final, m) ∧
      commit_step engW 1 final sampleReport sampleFbReport.timestamp
        (sampleFbReport.era_id + 1) = .ok s ∧
      beeReport.maybe_step_execution_effect = some s.execution_effect ∧
      beeReport.block.next_era_validator_weights = some s.next_era_validators ∧
      beeReport.block.state_root_hash = s.post_state_hash :=
  (step_gating engW engW 1 samplePre sampleFbReport [sampleDeploy] beeReport rfl).2
    sampleReport rfl

/-- C6: a raw `Failure` outcome has its effect set extracted and committed
exactly as a `Success` outcome with the same effect set would, and
`commit_execution_effects` returns `Ok` with a normalized `Failure` result, so
block processing continues. -/
theorem failure_non_fatal (eng : Engine) (root : Digest) (deploy_hash : Nat)
    (err : EngineError) (eff : ExecutionEffect) (cost nr : Nat)
    (hcommit : eng.apply_effect root eff.transforms = .ok nr) :
    commit_execution_effects eng root deploy_hash
        [EngineExecutionResult.Failure err eff cost]
      = .ok (nr, ExecutionResult.Failure err eff cost) ∧
    commit_execution_effects eng root deploy_hash
        [EngineExecutionResult.Success eff cost]
      = .ok (nr, ExecutionResult.Success eff cost) := by
  refine ⟨?_, ?_⟩ <;>
  · simp only [commit_execution_effects, exactlyOne, commit,
      ExecutionResult.ofEngineResult]
    rw [hcommit]

/-- Witness for C6 with a concrete failing outcome. -/
theorem failure_non_fatal_witness :
    commit_execution_effects engW 0 7 [EngineExecutionResult.Failure 4 effEmpty 9]
      = .ok (1, ExecutionResult.Failure 4 effEmpty 9) ∧
    commit_execution_effects engW 0 7 [EngineExecutionResult.Success effEmpty 9]
      = .ok (1, ExecutionResult.Success effEmpty 9) :=
  failure_non_fatal engW 0 7 4 effEmpty 9 1 rfl

/-- C8: `commit_step` submits to the engine a `StepRequest` whose reward items
are 1:1 with the report's reward weights, whose evict items are 1:1 with the
report's inactive validators, whose slash-item list is empty, whose
`run_auction` flag is true, and which carries the given pre-state root,
protocol version, next era id and era-end timestamp. -/
theorem commit_step_request_shape (eng : Engine) (pv : Nat) (root : Digest)
    (rep : EraReport) (ts next_era : Nat) :
    ∃ req : StepRequest,
      commit_step eng pv root rep ts next_era = eng.commit_step req ∧
      req.pre_state_hash = root ∧
      req.protocol_version = pv ∧
      req.reward_items = rep.rewards.map (fun rv => RewardItem.mk rv.1 rv.2) ∧
      req.reward_items.length = rep.rewards.length ∧
      req.evict_items = rep.inactive_validators.map EvictItem.mk ∧
      req.evict_items.length = rep.inactive_validators.length ∧
      req.slash_items = [] ∧
      req.run_auction = true ∧
      req.next_era_id = next_era ∧
      req.era_end_timestamp_millis = ts := by
  refine ⟨StepRequest.mk root pv (rep.rewards.map (fun rv => RewardItem.mk rv.1 rv.2)) []
      (rep.inactive_validators.map EvictItem.mk) true next_era ts,
    ?_, rfl, rfl, rfl, by simp, rfl, by simp, rfl, rfl, rfl, rfl⟩
  unfold commit_step
  rfl

/-- Witness for C8 at a concrete era report. -/
theorem commit_step_request_shape_witness :
    ∃ req : StepRequest,
      commit_step engW 1 0 sampleReport 1000 3 = engW.commit_step req ∧
      req.pre_state_hash = 0 ∧
      req.protocol_version = 1 ∧
      req.reward_items = sampleReport.rewards.map (fun rv => RewardItem.mk rv.1 rv.2) ∧
      req.reward_items.length = sampleReport.rewards.length ∧
      req.evict_items = sampleReport.inactive_validators.map EvictItem.mk ∧
      req.evict_items.length = sampleReport.inactive_validators.length ∧
      req.slash_items = [] ∧
      req.run_auction = true ∧
      req.next_era_id = 3 ∧
      req.era_end_timestamp_millis = 1000 :=
  commit_step_request_shape engW 1 0 sampleReport 1000 3

/-- C9: the pre-state height field is never read at runtime — two pre-states
differing only in `next_block_height` produce identical outcomes of
`execute_finalized_block` (the source checks the height only with a
`debug_assert_eq!`, absent from release builds), so a mismatch never causes
an error. -/
theorem height_mismatch_not_enforced (eng : Engine) (pv : Nat)
    (pre1 pre2 : ExecutionPreState) (fb : FinalizedBlock) (deploys : List Deploy)
    (hroot : pre1.pre_state_root_hash = pre2.pre_state_root_hash)
    (hparent : pre1.parent_hash = pre2.parent_hash)
    (hseed : pre1.parent_seed = pre2.parent_seed) :
    execute_finalized_block eng pv pre1 fb deploys
      = execute_finalized_block eng pv pre2 fb deploys := by
  unfold execute_finalized_block
  rw [hroot, hparent, hseed]

/-- Witness for C9: heights 3 and 999 (the latter mismatching the block's
declared height) give identical results. -/
theorem height_mismatch_not_enforced_witness :
    execute_finalized_block engW 1 (ExecutionPreState.mk 3 0 11 13)
        sampleFbNoReport [sampleDeploy]
      = execute_finalized_block engW 1 (ExecutionPreState.mk 999 0 11 13)
        sampleFbNoReport [sampleDeploy] :=
  height_mismatch_not_enforced engW 1 (ExecutionPreState.mk 3 0 11 13)
    (ExecutionPreState.mk 999 0 11 13) sampleFbNoReport [sampleDeploy] rfl rfl rfl

def dupA : Deploy := Deploy.mk 7 5

def dupB : Deploy := Deploy.mk 7 9

def beeDup : BlockAndExecutionEffects :=
  BlockAndExecutionEffects.mk (Block.new 11 13 2 sampleFbNoReport none 1)
    [(7, (9, ExecutionResult.Success effEmpty 1))] none

/-- C10: on success the per-transaction result map holds exactly one entry per
distinct deploy hash occurring in the block (and none for others); with two
deploys sharing a hash but differing in header, no error is raised and the
sole surviving entry carries the header and result of the last occurrence in
block order. -/
theorem duplicate_deploy_identifiers :
    (∀ eng pv pre fb deploys bee,
        execute_finalized_block eng pv pre fb deploys = .ok bee →
        ∀ h : Nat, countKey bee.execution_results h
          = if h ∈ deploys.map Deploy.hash then 1 else 0) ∧
    (execute_finalized_block engW 1 samplePre sampleFbNoReport [dupA, dupB]
        = .ok beeDup ∧
      dupA.hash = dupB.hash ∧
      dupA.header ≠ dupB.header ∧
      countKey beeDup.execution_results dupA.hash = 1 ∧
      lookupKey beeDup.execution_results dupA.hash
        = some (dupB.header, ExecutionResult.Success effEmpty 1)) := by
  constructor
  · intro eng pv pre fb deploys bee hok h
    obtain ⟨final, m, hd, hcases⟩ :=
      execute_finalized_block_inv eng pv pre fb deploys bee hok
    have hcount := execDeploys_countKey eng pv fb.proposer fb.timestamp deploys
      pre.pre_state_root_hash [] final m hd h
    have hm : bee.execution_results = m := by
      rcases hcases with ⟨_, hbee⟩ | ⟨rep, s, _, _, hbee⟩ <;> rw [hbee]
    rw [hm, hcount]
    rfl
  · exact ⟨rfl, rfl, by decide, rfl, rfl⟩

/-- Witness for C10's general part at the concrete duplicate-hash block. -/
theorem duplicate_deploy_identifiers_witness :
    countKey beeDup.execution_results 7
      = if 7 ∈ [dupA, dupB].map Deploy.hash then 1 else 0 :=
  duplicate_deploy_identifiers.1 engW 1 samplePre sampleFbNoReport [dupA, dupB]
    beeDup rfl 7
